import Mathlib

/-
Verification of the base-split / range-check gadget (src/gadgets/split_base.rs)
and the BLAKE2B hash gadget generators
(src/chip/hash/blake/blake2b/generator.rs) of the curta repository,
as a shallow embedding in Lean 4.

Machine integers are modelled as Nat; field elements are modelled by their
canonical integer representatives.  External collaborators (the BaseSumGate
constraint encoding, the BLAKE2B compression function, the INITIAL_HASH
constants) are abstracted exactly at their interface, as the specification
prescribes.
-/

set_option maxRecDepth 8000

namespace Curta

/-- A symbolic circuit cell (plonky2 `Target`): either a wire bound to a
gate's input slot, a virtual (unrouted) cell identified by a fresh index, or
a constant cell as returned by builder constant helpers such as `zero()` and
`one()`. -/
inductive Target where
  | wire (gate : Nat) (input : Nat)
  | virt (idx : Nat)
  | konst (c : Nat)
deriving DecidableEq

/-! ## The digit-count formula of `split_base.rs`

The source computes `(n as f64 * (2.0_f64.log(base as f64))).ceil() as usize`,
the real number `ceil(n * log_base(2))`.  For `base >= 2` this real-valued
formula equals the least `k` with `base ^ k >= 2 ^ n` (when `n * log_base 2`
is an integer `k` we have `base ^ k = 2 ^ n` exactly, otherwise the ceiling
is the first `k` with `base ^ k > 2 ^ n`), which is the exact-arithmetic
model used here. -/

/-- Helper loop: the least `j >= k` with `2 ^ n <= base ^ j`, searched with
the given amount of fuel (returns `k + fuel` if none is found). -/
def num_limbs_go (n base : Nat) : Nat → Nat → Nat
  | 0, k => k
  | fuel + 1, k => if 2 ^ n ≤ base ^ k then k else num_limbs_go n base fuel (k + 1)

/-- `num_limbs_to_check(n, base)` of src/gadgets/split_base.rs: the real
number `ceil(n * log_base(2))`, modelled exactly as the least `k` with
`base ^ k >= 2 ^ n` (these coincide for every `base >= 2`). -/
def num_limbs_to_check (n base : Nat) : Nat :=
  num_limbs_go n base (n + 1) 0

theorem num_limbs_go_le (n base : Nat) :
    ∀ fuel k, num_limbs_go n base fuel k ≤ k + fuel := by
  intro fuel
  induction fuel with
  | zero => intro k; simp [num_limbs_go]
  | succ m ih =>
    intro k
    simp only [num_limbs_go]
    split
    · omega
    · have := ih (k + 1)
      omega

theorem num_limbs_go_min (n base : Nat) :
    ∀ fuel k j, k ≤ j → j < num_limbs_go n base fuel k → base ^ j < 2 ^ n := by
  intro fuel
  induction fuel with
  | zero =>
    intro k j hkj hlt
    simp [num_limbs_go] at hlt
    omega
  | succ m ih =>
    intro k j hkj hlt
    simp only [num_limbs_go] at hlt
    split at hlt
    · omega
    · rcases Nat.eq_or_lt_of_le hkj with h | h
      · subst h; omega
      · exact ih (k + 1) j h hlt

theorem num_limbs_go_found (n base : Nat) :
    ∀ fuel k, 2 ^ n ≤ base ^ (k + fuel) → 2 ^ n ≤ base ^ (num_limbs_go n base fuel k) := by
  intro fuel
  induction fuel with
  | zero => intro k h; simpa [num_limbs_go] using h
  | succ m ih =>
    intro k h
    simp only [num_limbs_go]
    split
    · assumption
    · refine ih (k + 1) ?_
      have heq : k + (m + 1) = (k + 1) + m := by omega
      rwa [heq] at h

/-- Characterization: for `base >= 2`, `num_limbs_to_check n base` is the
least `k` with `2 ^ n <= base ^ k`. -/
theorem num_limbs_to_check_spec (n base : Nat) (hB : 2 ≤ base) :
    2 ^ n ≤ base ^ (num_limbs_to_check n base) ∧
      ∀ j < num_limbs_to_check n base, base ^ j < 2 ^ n := by
  constructor
  · refine num_limbs_go_found n base (n + 1) 0 ?_
    calc 2 ^ n ≤ base ^ n := Nat.pow_le_pow_left hB n
    _ ≤ base ^ (0 + (n + 1)) := Nat.pow_le_pow_right (by omega) (by omega)
  · intro j hj
    exact num_limbs_go_min n base (n + 1) 0 j (Nat.zero_le j) hj

/-- Monotonicity in the requested trailing-zero count. -/
theorem num_limbs_to_check_mono (m n base : Nat) (hB : 2 ≤ base) (hmn : m ≤ n) :
    num_limbs_to_check m base ≤ num_limbs_to_check n base := by
  by_contra h
  push_neg at h
  have h1 := (num_limbs_to_check_spec n base hB).1
  have h2 := (num_limbs_to_check_spec m base hB).2 _ h
  have : (2 : Nat) ^ m ≤ 2 ^ n := Nat.pow_le_pow_right (by omega) hmn
  omega

/-- The canonical little-endian base-`B` digit of `x` at position `i`.
Modelled from the spec: the decomposition gate (BaseSumGate, external to the
covered source) constrains canonical digit values `0 <= d_i < B` with
`x = sum d_i * B ^ i` (spec section 4.5, numeric semantics). -/
def base_digit (B x i : Nat) : Nat :=
  x / B ^ i % B

/-! ## Circuit-builder model for split_le_base / assert_trailing_zeros -/

/-- The part of plonky2's `CircuitConfig` the gadget consults. -/
structure CircuitConfig where
  num_routed_wires : Nat

/-- Builder state: gate counter, routed equalities, and the accumulated
`assert_zero` constraints (most recent first). -/
structure BuilderState where
  num_gates : Nat
  routes : List (Target × Target)
  zero_constraints : List Target
deriving DecidableEq

/-- `add_gate`: appends a gate, returning its index.  The BaseSumGate's own
constraint encoding is external to the covered source. -/
def add_gate (s : BuilderState) : Nat × BuilderState :=
  (s.num_gates, { s with num_gates := s.num_gates + 1 })

/-- `route a b`: declare that cells `a` and `b` must be equal. -/
def route (a b : Target) (s : BuilderState) : BuilderState :=
  { s with routes := (a, b) :: s.routes }

/-- `assert_zero t`: constrain cell `t` to the zero field element. -/
def assert_zero (t : Target) (s : BuilderState) : BuilderState :=
  { s with zero_constraints := t :: s.zero_constraints }

/-- BaseSumGate wire layout: the sum wire. -/
def WIRE_SUM : Nat := 0

/-- BaseSumGate wire layout: first limb wire. -/
def WIRE_LIMBS_START : Nat := 1

/-- `split_le_base::<B>(x)` of src/gadgets/split_base.rs: adds a
`BaseSumGate::<B>` with `num_limbs_to_check(64, B)` limbs, routes `x` to the
gate's sum wire, and returns the limb wire targets in little-endian order. -/
def split_le_base (B : Nat) (x : Target) (s : BuilderState) :
    List Target × BuilderState :=
  let num_limbs := num_limbs_to_check 64 B
  let gs := add_gate s
  let s2 := route x (Target.wire gs.1 WIRE_SUM) gs.2
  ((List.range num_limbs).map (fun i => Target.wire gs.1 (WIRE_LIMBS_START + i)), s2)

/-- `assert_trailing_zeros::<B>(x, trailing_zeros)` of
src/gadgets/split_base.rs: splits `x` into base-`B` limbs, computes
`t = num_limbs_to_check(trailing_zeros, B)`, fails (Rust `assert!` panic)
unless `t` is strictly below the number of routed wires, and otherwise
asserts the first `t` limbs are zero (indexing `limbs[i]` panics if `t`
exceeds the limb count). -/
def assert_trailing_zeros (cfg : CircuitConfig) (B : Nat) (x : Target)
    (trailing_zeros : Nat) (s : BuilderState) : Except String BuilderState :=
  let ls := split_le_base B x s
  let t := num_limbs_to_check trailing_zeros B
  if t < cfg.num_routed_wires then
    if t ≤ ls.1.length then
      Except.ok ((ls.1.take t).foldl (fun st l => assert_zero l st) ls.2)
    else
      Except.error "index out of range"
  else
    Except.error "Not enough routed wires."

theorem foldl_assert_zero (l : List Target) :
    ∀ s : BuilderState,
      l.foldl (fun st t => assert_zero t st) s =
        { s with zero_constraints := l.reverse ++ s.zero_constraints } := by
  induction l with
  | nil => intro s; rfl
  | cons a l ih =>
    intro s
    rw [List.foldl_cons, ih]
    simp [assert_zero]

/-- C1: the trailing-zero assertion is unsound as documented.  The code's
own doc comment (and the spec) promise: the digit count `t = ceil(n * log_B 2)`
computed by `num_limbs_to_check(n, B)` is such that any value whose low `t`
base-`B` digits vanish has at least `n` binary trailing zeros.  This fails:
with base 3 and n = 5 the code checks t = 4 digits, yet x = 1296 = 2^4 * 3^4
has all 4 low base-3 digits zero while having only 4 (not 5) binary trailing
zeros, so `assert_trailing_zeros(1296, 5)` over base 3 is satisfied by the
canonical digits of an x with fewer than 5 trailing zeros. -/
theorem num_limbs_to_check_unsound :
    num_limbs_to_check 5 3 = 4 ∧
    (∀ i < num_limbs_to_check 5 3, base_digit 3 1296 i = 0) ∧
    1296 % 2 ^ 4 = 0 ∧ 1296 % 2 ^ 5 ≠ 0 := by
  decide

/-- C3 (amended): `split_le_base::<B>` produces exactly
`k = num_limbs_to_check(64, B)` digit targets, where `k` is the minimum
integer with `B ^ k >= 2 ^ 64` (the claim's strict bound `B ^ k > 2 ^ 64`
fails for `B = 2`); `k` depends only on `B`, not on the value being split
(the split value `x` and builder state `s` are universally quantified and
absent from the digit count). -/
theorem split_le_base_limb_count (B : Nat) (x : Target) (s : BuilderState)
    (hB : 2 ≤ B) :
    (split_le_base B x s).1.length = num_limbs_to_check 64 B ∧
    2 ^ 64 ≤ B ^ (num_limbs_to_check 64 B) ∧
    ∀ j < num_limbs_to_check 64 B, B ^ j < 2 ^ 64 := by
  refine ⟨?_, (num_limbs_to_check_spec 64 B hB).1, (num_limbs_to_check_spec 64 B hB).2⟩
  simp [split_le_base]

/-- Witness for C3's amended theorem at B = 5: the source's own test notes
`5^27 < 2^64 <= 5^28`, and indeed 28 limb targets are produced. -/
theorem split_le_base_limb_count_witness :
    (2 ≤ 5) ∧ num_limbs_to_check 64 5 = 28 ∧
    ((split_le_base 5 (Target.konst 160) ⟨0, [], []⟩).1.length = num_limbs_to_check 64 5 ∧
     2 ^ 64 ≤ 5 ^ (num_limbs_to_check 64 5) ∧
     ∀ j < num_limbs_to_check 64 5, 5 ^ j < 2 ^ 64) :=
  ⟨by decide, by decide,
    split_le_base_limb_count 5 (Target.konst 160) ⟨0, [], []⟩ (by decide)⟩

/-- Counterexample to C3 as stated: at base B = 2 the gadget produces 64
digit targets, but 64 is not "the minimum k such that B ^ k > 2 ^ 64" (that
minimum is 65): the produced count does not even satisfy `2 ^ k > 2 ^ 64`.
The correct characterization uses `B ^ k >= 2 ^ 64`. -/
theorem split_le_base_strict_bound_cex :
    (split_le_base 2 (Target.konst 0) ⟨0, [], []⟩).1.length = 64 ∧
    ¬ ((2 : Nat) ^ 64 < 2 ^ (split_le_base 2 (Target.konst 0) ⟨0, [], []⟩).1.length) := by
  decide

/-- C8: `assert_trailing_zeros::<B>(x, n)` computes
`t = num_limbs_to_check(n, B)` (the exact model of `ceil(n * log_B 2)`); if
`t` is not strictly below the number of routed wires it fails with the
configuration error "Not enough routed wires." (an assembly-time panic, not
a proof failure, and no digits are checked), and if `t` is strictly below it
succeeds, emitting zero-assertions on exactly the first `t` limbs of the
decomposition of `x`. -/
theorem assert_trailing_zeros_spec (cfg : CircuitConfig) (B n : Nat)
    (x : Target) (s : BuilderState) (hB : 2 ≤ B) (hn : n ≤ 64) :
    (num_limbs_to_check n B < cfg.num_routed_wires →
      assert_trailing_zeros cfg B x n s =
        Except.ok { (split_le_base B x s).2 with
          zero_constraints :=
            ((split_le_base B x s).1.take (num_limbs_to_check n B)).reverse
              ++ (split_le_base B x s).2.zero_constraints }) ∧
    (cfg.num_routed_wires ≤ num_limbs_to_check n B →
      assert_trailing_zeros cfg B x n s = Except.error "Not enough routed wires.") := by
  have hlen : num_limbs_to_check n B ≤ (split_le_base B x s).1.length := by
    have := num_limbs_to_check_mono n 64 B hB hn
    simpa [split_le_base] using this
  constructor
  · intro h
    simp only [assert_trailing_zeros]
    rw [if_pos h, if_pos hlen, foldl_assert_zero]
  · intro h
    simp only [assert_trailing_zeros]
    rw [if_neg (by omega)]

/-- Witness for C8 at the source test's configuration (12 routed wires),
base 3, n = 5 (so t = 4 < 12). -/
theorem assert_trailing_zeros_spec_witness :
    ((2 ≤ 3) ∧ (5 ≤ 64)) ∧
    ((num_limbs_to_check 5 3 < (⟨12⟩ : CircuitConfig).num_routed_wires →
      assert_trailing_zeros ⟨12⟩ 3 (Target.konst 160) 5 ⟨0, [], []⟩ =
        Except.ok { (split_le_base 3 (Target.konst 160) ⟨0, [], []⟩).2 with
          zero_constraints :=
            ((split_le_base 3 (Target.konst 160) ⟨0, [], []⟩).1.take
                (num_limbs_to_check 5 3)).reverse
              ++ (split_le_base 3 (Target.konst 160) ⟨0, [], []⟩).2.zero_constraints }) ∧
    ((⟨12⟩ : CircuitConfig).num_routed_wires ≤ num_limbs_to_check 5 3 →
      assert_trailing_zeros ⟨12⟩ 3 (Target.konst 160) 5 ⟨0, [], []⟩ =
        Except.error "Not enough routed wires.")) :=
  ⟨⟨by decide, by decide⟩,
    assert_trailing_zeros_spec ⟨12⟩ 3 5 (Target.konst 160) ⟨0, [], []⟩
      (by decide) (by decide)⟩

/-! ## BLAKE2B hint generator (src/chip/hash/blake/blake2b/generator.rs)

Field elements are modelled by their canonical integer representatives, so
`as_canonical_u64() as u8` is `% 256`.  The compression function
`BLAKE2BGadget::compress` and the `INITIAL_HASH` constants live outside the
covered source and are abstracted as parameters, exactly at their interface
(an 8-word 64-bit state, a 128-byte chunk, a byte counter and a last-chunk
flag, per the specification). -/

/-- `u64_to_le_field_bytes`: the 8 little-endian bytes of a 64-bit word. -/
def u64_to_le_bytes (x : Nat) : List Nat :=
  (List.range 8).map (fun i => x / 256 ^ i % 256)

/-- Rust `chunks_exact(k)`: splits a list into consecutive sublists of
length exactly `k`, discarding any remainder shorter than `k`. -/
def chunks_exact {α : Type} (k : Nat) (l : List α) : List (List α) :=
  if h : 0 < k ∧ k ≤ l.length then
    l.take k :: chunks_exact k (l.drop k)
  else []
termination_by l.length
decreasing_by simp only [List.length_drop]; omega

theorem chunks_exact_length {α : Type} (k : Nat) (hk : 0 < k) :
    ∀ l : List α, (chunks_exact k l).length = l.length / k := by
  have main : ∀ (n : Nat) (l : List α), l.length ≤ n →
      (chunks_exact k l).length = l.length / k := by
    intro n
    induction n with
    | zero =>
      intro l hl
      rw [chunks_exact, dif_neg (by omega)]
      have : l.length = 0 := by omega
      simp [this]
    | succ n ih =>
      intro l hl
      rw [chunks_exact]
      split
      · rename_i h
        have hdrop : (l.drop k).length = l.length - k := by simp
        rw [List.length_cons, ih (l.drop k) (by omega), hdrop,
          Nat.div_eq_sub_div hk h.2]
      · rename_i h
        have : l.length < k := by omega
        simp [Nat.div_eq_of_lt this]
  intro l
  exact main l.length l le_rfl

theorem chunks_exact_mem_length {α : Type} (k : Nat) :
    ∀ (l : List α), ∀ c ∈ chunks_exact k l, c.length = k := by
  have main : ∀ (n : Nat) (l : List α), l.length ≤ n →
      ∀ c ∈ chunks_exact k l, c.length = k := by
    intro n
    induction n with
    | zero =>
      intro l hl c hc
      rw [chunks_exact] at hc
      split at hc
      · omega
      · simp at hc
    | succ n ih =>
      intro l hl c hc
      rw [chunks_exact] at hc
      split at hc
      · rename_i h
        rcases List.mem_cons.mp hc with h1 | h1
        · subst h1; simp [Nat.min_eq_left h.2]
        · exact ih (l.drop k) (by simp; omega) c h1
      · simp at hc
  intro l
  exact main l.length l le_rfl

/-- The compression loop of `BLAKE2BHintGenerator::run_once`: iterates over
the 128-byte chunks, carrying the running `bytes_compressed` counter; the
final chunk (index `num_chunks - 1`) instead receives the witnessed
`message_len` and the `last_chunk` flag. -/
def blake_loop (compress : List Nat → List Nat → Nat → Bool → List Nat)
    (num_chunks message_len : Nat) :
    List (List Nat) → Nat → List Nat → Nat → List Nat
  | [], _, state, _ => state
  | chunk :: rest, chunk_num, state, bytes_compressed =>
    let last_chunk : Bool := chunk_num == num_chunks - 1
    let bc := if last_chunk then message_len else bytes_compressed + 128
    blake_loop compress num_chunks message_len rest (chunk_num + 1)
      (compress chunk state bc last_chunk) bc

/-- Digest extraction of `run_once`: "We only support a digest of 32 bytes.
Retrieve the first four elements of the state", each as little-endian
bytes. -/
def digest_of_state (state : List Nat) : List Nat :=
  ((state.take 4).map u64_to_le_bytes).flatten

/-- The `BLAKE2BHintGenerator` data: padded-message targets, the
message-length target, and the 32 digest-byte output targets. -/
structure BLAKE2BHintGenerator where
  padded_message : List Target
  message_len : Target
  digest_bytes : List Target
deriving DecidableEq

/-- `BLAKE2BHintGenerator::new`: stores the three fields; performs no
validation of the padded-message length. -/
def BLAKE2BHintGenerator.new (padded_message : List Target)
    (message_len : Target) (digest_bytes : List Target) : BLAKE2BHintGenerator :=
  { padded_message := padded_message, message_len := message_len,
    digest_bytes := digest_bytes }

/-- `BLAKE2BHintGenerator::dependencies`: returns (a clone of) the
padded-message targets only. -/
def BLAKE2BHintGenerator.dependencies (g : BLAKE2BHintGenerator) : List Target :=
  g.padded_message

/-- The computation of `run_once` after the witness reads: byte-truncated
padded message and witnessed message length in, digest writes out.  Fails
(Rust `assert!`) when the padded length is not a multiple of 128, before
any compression is invoked. -/
def blake_run_once_core (compress : List Nat → List Nat → Nat → Bool → List Nat)
    (initial_hash : List Nat) (padded_bytes : List Nat) (message_len : Nat)
    (digest_targets : List Target) : Option (List (Target × Nat)) :=
  if padded_bytes.length % 128 = 0 then
    some (digest_targets.zip (digest_of_state
      (blake_loop compress (padded_bytes.length / 128) message_len
        (chunks_exact 128 padded_bytes) 0 initial_hash 0)))
  else none

/-- `BLAKE2BHintGenerator::run_once`: reads the padded-message witness
values, keeping the low 8 bits of each (`as_canonical_u64() as u8`), reads
the message-length witness value, runs the compression loop and writes the
digest bytes (zipped with the digest-byte targets). -/
def blake_run_once (compress : List Nat → List Nat → Nat → Bool → List Nat)
    (initial_hash : List Nat) (witness : Target → Nat)
    (g : BLAKE2BHintGenerator) : Option (List (Target × Nat)) :=
  blake_run_once_core compress initial_hash
    ((g.padded_message.map witness).map (fun x => x % 256))
    (witness g.message_len) g.digest_bytes

/-- The per-chunk arguments that `run_once` passes to the compression: for
chunk index `i` below `num_chunks - 1` the byte counter is `128 * (i + 1)`
with `last_chunk = false`; the final chunk receives the witnessed message
length with `last_chunk = true`. -/
def chunk_args (num_chunks message_len i : Nat) : Nat × Bool :=
  if i = num_chunks - 1 then (message_len, true) else (128 * (i + 1), false)

theorem blake_loop_eq_foldl (compress : List Nat → List Nat → Nat → Bool → List Nat)
    (c ml : Nat) :
    ∀ (chunks : List (List Nat)) (i : Nat) (st : List Nat),
      i + chunks.length = c →
      blake_loop compress c ml chunks i st (128 * i) =
        (chunks.enumFrom i).foldl
          (fun s p => compress p.2 s (chunk_args c ml p.1).1 (chunk_args c ml p.1).2)
          st := by
  intro chunks
  induction chunks with
  | nil => intro i st _; rfl
  | cons ch rest ih =>
    intro i st h
    simp only [List.length_cons] at h
    by_cases hi : i = c - 1
    · have hr : rest = [] := List.length_eq_zero.mp (by omega)
      subst hr
      have hb : (i == c - 1) = true := by simp [hi]
      simp only [blake_loop, hb, if_true, List.enumFrom, List.foldl_cons,
        List.foldl_nil, chunk_args, hi, if_pos rfl]
      simp
    · have hb : (i == c - 1) = false := by simp [hi]
      have h128 : 128 * i + 128 = 128 * (i + 1) := by ring
      simp only [blake_loop, hb, if_false, Bool.false_eq_true, List.enumFrom,
        List.foldl_cons]
      rw [h128, ih (i + 1) _ (by omega)]
      simp only [chunk_args, if_neg hi]

/-- C2: for a padded message of length `128 * c` (`c >= 1` chunks),
`run_once` invokes the compression once per chunk in order: chunk `i` with
`i < c - 1` receives `bytes_compressed = 128 * (i + 1)` and
`last_chunk = false`, and the final chunk receives the witnessed message
length and `last_chunk = true` (this is exactly `chunk_args c (w
g.message_len) i`), after which the digest of the folded state is written. -/
theorem blake_run_once_chunk_schedule
    (compress : List Nat → List Nat → Nat → Bool → List Nat)
    (initial_hash : List Nat) (w : Target → Nat) (g : BLAKE2BHintGenerator)
    (c : Nat) (hc : 0 < c) (hlen : g.padded_message.length = 128 * c) :
    (chunks_exact 128 ((g.padded_message.map w).map (fun x => x % 256))).length = c ∧
    blake_run_once compress initial_hash w g =
      some (g.digest_bytes.zip (digest_of_state
        (((chunks_exact 128 ((g.padded_message.map w).map (fun x => x % 256))).enumFrom 0).foldl
          (fun s p => compress p.2 s
            (chunk_args c (w g.message_len) p.1).1
            (chunk_args c (w g.message_len) p.1).2)
          initial_hash))) := by
  have hblen : ((g.padded_message.map w).map (fun x => x % 256)).length = 128 * c := by
    simp [hlen]
  have hchunks : (chunks_exact 128 ((g.padded_message.map w).map (fun x => x % 256))).length = c := by
    rw [chunks_exact_length 128 (by omega), hblen, Nat.mul_div_cancel_left c (by omega)]
  refine ⟨hchunks, ?_⟩
  rw [blake_run_once, blake_run_once_core, if_pos (by rw [hblen]; exact Nat.mul_mod_right 128 c)]
  rw [hblen, Nat.mul_div_cancel_left c (by omega)]
  rw [show (0 : Nat) = 128 * 0 by rfl]
  rw [blake_loop_eq_foldl compress c (w g.message_len) _ 0 initial_hash (by omega)]

/-- A trivial stand-in for the external compression function (returns the
state unchanged), used to instantiate theorems at concrete inputs. -/
def triv_compress : List Nat → List Nat → Nat → Bool → List Nat :=
  fun _ st _ _ => st

/-- A stand-in compression function with a fixed 8-word output. -/
def const_compress : List Nat → List Nat → Nat → Bool → List Nat :=
  fun _ _ _ _ => List.replicate 8 0

/-- Witness for C2 at a two-chunk (256-byte) padded message. -/
theorem blake_run_once_chunk_schedule_witness :
    ((0 < 2) ∧
      (BLAKE2BHintGenerator.new (List.replicate 256 (Target.virt 0))
        (Target.virt 1) []).padded_message.length = 128 * 2) ∧
    ((chunks_exact 128
        (((BLAKE2BHintGenerator.new (List.replicate 256 (Target.virt 0))
          (Target.virt 1) []).padded_message.map (fun _ => (3 : Nat))).map
            (fun x => x % 256))).length = 2 ∧
      blake_run_once triv_compress (List.replicate 8 0) (fun _ => (3 : Nat))
          (BLAKE2BHintGenerator.new (List.replicate 256 (Target.virt 0))
            (Target.virt 1) []) =
        some ((BLAKE2BHintGenerator.new (List.replicate 256 (Target.virt 0))
            (Target.virt 1) []).digest_bytes.zip (digest_of_state
          (((chunks_exact 128
              (((BLAKE2BHintGenerator.new (List.replicate 256 (Target.virt 0))
                (Target.virt 1) []).padded_message.map (fun _ => (3 : Nat))).map
                  (fun x => x % 256))).enumFrom 0).foldl
            (fun s p => triv_compress p.2 s
              (chunk_args 2 3 p.1).1 (chunk_args 2 3 p.1).2)
            (List.replicate 8 0))))) :=
  ⟨⟨by decide, by decide⟩,
    blake_run_once_chunk_schedule triv_compress (List.replicate 8 0)
      (fun _ => (3 : Nat))
      (BLAKE2BHintGenerator.new (List.replicate 256 (Target.virt 0))
        (Target.virt 1) []) 2 (by decide) (by decide)⟩

/-- C4 (amended): a padded message whose byte length is not a multiple of
128 is rejected as a fatal witness-generation-time error: `run_once` fails
its length assertion before invoking any compression (the result is `none`
for every compression function), while generator construction performs no
length check. -/
theorem blake_run_once_rejects_bad_length
    (compress : List Nat → List Nat → Nat → Bool → List Nat)
    (initial_hash : List Nat) (w : Target → Nat) (g : BLAKE2BHintGenerator)
    (h : g.padded_message.length % 128 ≠ 0) :
    blake_run_once compress initial_hash w g = none := by
  rw [blake_run_once, blake_run_once_core, if_neg (by simpa using h)]

/-- Witness for C4's amended theorem at a 129-byte padded message. -/
theorem blake_run_once_rejects_bad_length_witness :
    ((BLAKE2BHintGenerator.new (List.replicate 129 (Target.virt 0))
        (Target.virt 1) []).padded_message.length % 128 ≠ 0) ∧
    blake_run_once triv_compress (List.replicate 8 0) (fun _ => 0)
        (BLAKE2BHintGenerator.new (List.replicate 129 (Target.virt 0))
          (Target.virt 1) []) = none :=
  ⟨by decide,
    blake_run_once_rejects_bad_length triv_compress (List.replicate 8 0)
      (fun _ => 0)
      (BLAKE2BHintGenerator.new (List.replicate 129 (Target.virt 0))
        (Target.virt 1) []) (by decide)⟩

/-- Counterexample to C4 as stated: the rejection is not an assembly-time
error.  A 129-byte padded message passes generator construction untouched
(`new` stores it with no check, so assembly succeeds and witness generation
is reached), and the failure surfaces only when `run_once` executes during
witness generation. -/
theorem blake_length_checked_at_witness_generation :
    (BLAKE2BHintGenerator.new (List.replicate 129 (Target.virt 0))
        (Target.virt 1) []).padded_message = List.replicate 129 (Target.virt 0) ∧
    (BLAKE2BHintGenerator.new (List.replicate 129 (Target.virt 0))
        (Target.virt 1) []).padded_message.length % 128 ≠ 0 ∧
    blake_run_once const_compress (List.replicate 8 0) (fun _ => 0)
        (BLAKE2BHintGenerator.new (List.replicate 129 (Target.virt 0))
          (Target.virt 1) []) = none := by
  refine ⟨rfl, by decide, ?_⟩
  rw [blake_run_once, blake_run_once_core, if_neg (by decide)]

theorem blake_loop_length (compress : List Nat → List Nat → Nat → Bool → List Nat)
    (c ml : Nat)
    (h8 : ∀ ch st bc last, (compress ch st bc last).length = 8) :
    ∀ (chunks : List (List Nat)) (i : Nat) (st : List Nat) (bc : Nat),
      st.length = 8 → (blake_loop compress c ml chunks i st bc).length = 8 := by
  intro chunks
  induction chunks with
  | nil => intro i st bc h; simpa [blake_loop] using h
  | cons ch rest ih =>
    intro i st bc h
    simp only [blake_loop]
    exact ih _ _ _ (h8 _ _ _ _)

theorem map_u64_bytes_flatten_length (l : List Nat) :
    ((l.map u64_to_le_bytes).flatten).length = 8 * l.length := by
  induction l with
  | nil => simp
  | cons a t ih =>
    simp only [List.map_cons, List.flatten_cons, List.length_append, ih,
      u64_to_le_bytes, List.length_map, List.length_range, List.length_cons]
    ring

theorem digest_of_state_length (state : List Nat) (h : 4 ≤ state.length) :
    (digest_of_state state).length = 32 := by
  rw [digest_of_state, map_u64_bytes_flatten_length, List.length_take]
  omega

/-- C7: `run_once` writes exactly 32 digest bytes: the little-endian byte
encodings of the first four 64-bit state words after the final compression;
the remaining four state words have no effect on the written digest (any
state agreeing on the first four words yields the same digest bytes). -/
theorem blake_run_once_digest
    (compress : List Nat → List Nat → Nat → Bool → List Nat)
    (initial_hash : List Nat) (w : Target → Nat) (g : BLAKE2BHintGenerator)
    (h8 : ∀ ch st bc last, (compress ch st bc last).length = 8)
    (hih : initial_hash.length = 8)
    (h32 : g.digest_bytes.length = 32)
    (hlen : g.padded_message.length % 128 = 0) :
    ∃ final : List Nat, final.length = 8 ∧
      blake_run_once compress initial_hash w g =
        some (g.digest_bytes.zip (digest_of_state final)) ∧
      (digest_of_state final).length = 32 ∧
      (g.digest_bytes.zip (digest_of_state final)).length = 32 ∧
      ∀ other : List Nat, other.take 4 = final.take 4 →
        digest_of_state other = digest_of_state final := by
  have hblen : ((g.padded_message.map w).map (fun x => x % 256)).length % 128 = 0 := by
    simpa using hlen
  refine ⟨blake_loop compress
      (((g.padded_message.map w).map (fun x => x % 256)).length / 128)
      (w g.message_len)
      (chunks_exact 128 ((g.padded_message.map w).map (fun x => x % 256)))
      0 initial_hash 0, ?_, ?_, ?_, ?_, ?_⟩
  · exact blake_loop_length compress _ _ h8 _ _ _ _ hih
  · rw [blake_run_once, blake_run_once_core, if_pos hblen]
  · exact digest_of_state_length _
      (by rw [blake_loop_length compress _ _ h8 _ _ _ _ hih]; omega)
  · rw [List.length_zip, h32,
      digest_of_state_length _
        (by rw [blake_loop_length compress _ _ h8 _ _ _ _ hih]; omega)]
    simp
  · intro other hother
    rw [digest_of_state, digest_of_state, hother]

/-- Witness for C7 at a one-chunk message with a fixed-output compression. -/
theorem blake_run_once_digest_witness :
    ((List.replicate 8 0 : List Nat).length = 8 ∧
      (BLAKE2BHintGenerator.new (List.replicate 128 (Target.virt 0))
        (Target.virt 1) ((List.range 32).map Target.virt)).digest_bytes.length = 32 ∧
      (BLAKE2BHintGenerator.new (List.replicate 128 (Target.virt 0))
        (Target.virt 1) ((List.range 32).map Target.virt)).padded_message.length % 128 = 0) ∧
    (∃ final : List Nat, final.length = 8 ∧
      blake_run_once const_compress (List.replicate 8 0) (fun _ => 0)
          (BLAKE2BHintGenerator.new (List.replicate 128 (Target.virt 0))
            (Target.virt 1) ((List.range 32).map Target.virt)) =
        some ((BLAKE2BHintGenerator.new (List.replicate 128 (Target.virt 0))
          (Target.virt 1) ((List.range 32).map Target.virt)).digest_bytes.zip
            (digest_of_state final)) ∧
      (digest_of_state final).length = 32 ∧
      ((BLAKE2BHintGenerator.new (List.replicate 128 (Target.virt 0))
        (Target.virt 1) ((List.range 32).map Target.virt)).digest_bytes.zip
          (digest_of_state final)).length = 32 ∧
      ∀ other : List Nat, other.take 4 = final.take 4 →
        digest_of_state other = digest_of_state final) :=
  ⟨⟨rfl, by decide, by decide⟩,
    blake_run_once_digest const_compress (List.replicate 8 0) (fun _ => 0)
      (BLAKE2BHintGenerator.new (List.replicate 128 (Target.virt 0))
        (Target.virt 1) ((List.range 32).map Target.virt))
      (fun _ _ _ _ => rfl) rfl (by decide) (by decide)⟩

/-- C9: the generator's declared dependency set is exactly the
padded-message targets and nothing else; in particular the message-length
target (whose witness value `run_once` reads for the final chunk's byte
counter) is not in the declared dependency set whenever it is not itself one
of the padded-message targets. -/
theorem blake_hint_dependencies (g : BLAKE2BHintGenerator) :
    BLAKE2BHintGenerator.dependencies g = g.padded_message ∧
    (g.message_len ∉ g.padded_message →
      g.message_len ∉ BLAKE2BHintGenerator.dependencies g) :=
  ⟨rfl, fun h => h⟩

/-- Witness for C9 at a concrete generator with a distinct length target. -/
theorem blake_hint_dependencies_witness :
    (Target.virt 1 ∉ [Target.virt 0]) ∧
    (BLAKE2BHintGenerator.dependencies ⟨[Target.virt 0], Target.virt 1, []⟩ =
        [Target.virt 0] ∧
      (Target.virt 1 ∉ [Target.virt 0] →
        Target.virt 1 ∉
          BLAKE2BHintGenerator.dependencies ⟨[Target.virt 0], Target.virt 1, []⟩)) :=
  ⟨by decide, blake_hint_dependencies ⟨[Target.virt 0], Target.virt 1, []⟩⟩

/-- C10: `run_once` never fails on an out-of-range padded-message byte: for
any witness assigning some padded-message cell a canonical value of 256 or
more, it still succeeds (whenever the length assertion passes) and computes
the same digest as the witness truncated to the low 8 bits on the
padded-message cells. -/
theorem blake_run_once_truncates
    (compress : List Nat → List Nat → Nat → Bool → List Nat)
    (initial_hash : List Nat) (w : Target → Nat) (g : BLAKE2BHintGenerator)
    (hlen : g.padded_message.length % 128 = 0)
    (hml : g.message_len ∉ g.padded_message)
    (hbig : ∃ t ∈ g.padded_message, 256 ≤ w t) :
    (blake_run_once compress initial_hash w g).isSome = true ∧
    blake_run_once compress initial_hash w g =
      blake_run_once compress initial_hash
        (fun t => if t ∈ g.padded_message then w t % 256 else w t) g := by
  have hbytes :
      ((g.padded_message.map
          (fun t => if t ∈ g.padded_message then w t % 256 else w t)).map
        (fun x => x % 256)) =
      ((g.padded_message.map w).map (fun x => x % 256)) := by
    rw [List.map_map, List.map_map]
    refine List.map_congr_left ?_
    intro t ht
    simp only [Function.comp_apply, if_pos ht]
    omega
  constructor
  · rw [blake_run_once, blake_run_once_core, if_pos (by simpa using hlen)]
    rfl
  · rw [blake_run_once, blake_run_once, hbytes, if_neg hml]

/-- Witness for C10: a one-chunk message whose every cell holds 300. -/
theorem blake_run_once_truncates_witness :
    ((BLAKE2BHintGenerator.new (List.replicate 128 (Target.virt 0))
        (Target.virt 1) []).padded_message.length % 128 = 0 ∧
      (BLAKE2BHintGenerator.new (List.replicate 128 (Target.virt 0))
          (Target.virt 1) []).message_len ∉
        (BLAKE2BHintGenerator.new (List.replicate 128 (Target.virt 0))
          (Target.virt 1) []).padded_message ∧
      (∃ t ∈ (BLAKE2BHintGenerator.new (List.replicate 128 (Target.virt 0))
          (Target.virt 1) []).padded_message, 256 ≤ (fun _ => (300 : Nat)) t)) ∧
    ((blake_run_once triv_compress (List.replicate 8 0) (fun _ => (300 : Nat))
        (BLAKE2BHintGenerator.new (List.replicate 128 (Target.virt 0))
          (Target.virt 1) [])).isSome = true ∧
      blake_run_once triv_compress (List.replicate 8 0) (fun _ => (300 : Nat))
          (BLAKE2BHintGenerator.new (List.replicate 128 (Target.virt 0))
            (Target.virt 1) []) =
        blake_run_once triv_compress (List.replicate 8 0)
          (fun t => if t ∈ (BLAKE2BHintGenerator.new
              (List.replicate 128 (Target.virt 0)) (Target.virt 1) []).padded_message
            then (fun _ => (300 : Nat)) t % 256 else (fun _ => (300 : Nat)) t)
          (BLAKE2BHintGenerator.new (List.replicate 128 (Target.virt 0))
            (Target.virt 1) [])) :=
  ⟨⟨by decide, by decide, by decide⟩,
    blake_run_once_truncates triv_compress (List.replicate 8 0)
      (fun _ => (300 : Nat))
      (BLAKE2BHintGenerator.new (List.replicate 128 (Target.virt 0))
        (Target.virt 1) []) (by decide) (by decide) (by decide)⟩

/-! ## BLAKE2BPublicData::add_virtual (public-input wiring) -/

/-- The circuit builder's fresh-virtual-target counter, the only builder
state `add_virtual` interacts with. -/
structure PubBuilderState where
  next_virtual : Nat
deriving DecidableEq

/-- `builder.zero()`: the constant zero target. -/
def builder_zero : Target := Target.konst 0

/-- `builder.one()`: the constant one target. -/
def builder_one : Target := Target.konst 1

/-- `builder.add_virtual_target_arr::<4>()`: four freshly allocated virtual
targets. -/
def add_virtual_target_arr4 (s : PubBuilderState) : List Target × PubBuilderState :=
  ((List.range 4).map (fun j => Target.virt (s.next_virtual + j)),
    ⟨s.next_virtual + 4⟩)

/-- `(0..n).map(|_| builder.add_virtual_target_arr::<4>())`: a sequence of
`n` fresh 4-target arrays. -/
def add_virtual_arrs : Nat → PubBuilderState → List (List Target) × PubBuilderState
  | 0, s => ([], s)
  | n + 1, s =>
    let a := add_virtual_target_arr4 s
    let rest := add_virtual_arrs n a.2
    (a.1 :: rest.1, rest.2)

theorem add_virtual_arrs_fst :
    ∀ (n : Nat) (s : PubBuilderState),
      (add_virtual_arrs n s).1 =
        (List.range n).map
          (fun i => (List.range 4).map (fun j => Target.virt (s.next_virtual + 4 * i + j))) := by
  intro n
  induction n with
  | zero => intro s; rfl
  | succ n ih =>
    intro s
    rw [List.range_succ_eq_map n, List.map_cons, List.map_map]
    show (add_virtual_target_arr4 s).1 ::
        (add_virtual_arrs n (add_virtual_target_arr4 s).2).1 = _
    rw [ih]
    congr 1
    simp only [add_virtual_target_arr4]
    refine List.map_congr_left ?_
    intro i _
    simp only [Function.comp_apply]
    refine List.map_congr_left ?_
    intro j _
    congr 1
    omega

theorem add_virtual_arrs_snd :
    ∀ (n : Nat) (s : PubBuilderState),
      (add_virtual_arrs n s).2 = ⟨s.next_virtual + 4 * n⟩ := by
  intro n
  induction n with
  | zero => intro s; rfl
  | succ n ih =>
    intro s
    show (add_virtual_arrs n (add_virtual_target_arr4 s).2).2 = _
    rw [ih]
    simp only [add_virtual_target_arr4]
    congr 1
    omega

/-- The BLAKE2B public-input targets: intermediate hash-state words and
end-of-message bits. -/
structure BLAKE2BPublicData where
  hash_state : List (List Target)
  end_bits : List Target
deriving DecidableEq

/-- The body of `add_virtual`'s per-message loop over
`digests.chunks_exact(32).zip_eq(chunk_sizes)`: appends `chunk_size - 1`
zero end-bits and a final one end-bit, allocates `8 * (chunk_size - 1)`
fresh intermediate state-word arrays, and appends the digest's 8 reversed
4-byte chunks as the final state words. -/
def add_virtual_loop :
    List (List Target × Nat) → PubBuilderState →
      List (List Target) × List Target × PubBuilderState
  | [], s => ([], [], s)
  | (digest, chunk_size) :: rest, s =>
    let eb := List.replicate (chunk_size - 1) builder_zero ++ [builder_one]
    let fresh := add_virtual_arrs (8 * (chunk_size - 1)) s
    let digest_words := (chunks_exact 4 digest).map List.reverse
    let r := add_virtual_loop rest fresh.2
    (fresh.1 ++ digest_words ++ r.1, eb ++ r.2.1, r.2.2)

/-- `BLAKE2BPublicData::add_virtual`: allocates the (unused) public message
chunk targets, then runs the per-message loop; `zip_eq` panics (here:
`none`) when the digest-chunk count and the chunk-size count differ. -/
def BLAKE2BPublicData.add_virtual (digests : List Target) (chunk_sizes : List Nat)
    (s : PubBuilderState) : Option (BLAKE2BPublicData × PubBuilderState) :=
  let pm := add_virtual_arrs (16 * 1024) s
  if (chunks_exact 32 digests).length = chunk_sizes.length then
    let r := add_virtual_loop ((chunks_exact 32 digests).zip chunk_sizes) pm.2
    some (⟨r.1, r.2.1⟩, r.2.2)
  else none

/-- The per-message shape of the hash-state wiring, starting from fresh
counter `k`: for each message, `8 * (c - 1)` freshly allocated virtual
4-target word arrays (the intermediate chunk-boundary states), followed by
the message digest's 8 reversed 4-target chunks (the final state words). -/
def hash_state_spec :
    List (List Target × Nat) → Nat → List (List Target)
  | [], _ => []
  | (digest, c) :: rest, k =>
    (List.range (8 * (c - 1))).map
        (fun i => (List.range 4).map (fun j => Target.virt (k + 4 * i + j)))
      ++ (chunks_exact 4 digest).map List.reverse
      ++ hash_state_spec rest (k + 4 * (8 * (c - 1)))

theorem add_virtual_loop_hash_state :
    ∀ (zl : List (List Target × Nat)) (s : PubBuilderState),
      (add_virtual_loop zl s).1 = hash_state_spec zl s.next_virtual := by
  intro zl
  induction zl with
  | nil => intro s; rfl
  | cons p rest ih =>
    intro s
    obtain ⟨digest, c⟩ := p
    simp only [add_virtual_loop, hash_state_spec, add_virtual_arrs_fst,
      add_virtual_arrs_snd, ih]

theorem add_virtual_loop_end_bits :
    ∀ (zl : List (List Target × Nat)) (s : PubBuilderState),
      (add_virtual_loop zl s).2.1 =
        ((zl.map
          (fun p => List.replicate (p.2 - 1) builder_zero ++ [builder_one])).flatten) := by
  intro zl
  induction zl with
  | nil => intro s; rfl
  | cons p rest ih =>
    intro s
    obtain ⟨digest, c⟩ := p
    simp only [add_virtual_loop, ih, List.map_cons, List.flatten_cons]

theorem map_comp_snd_zip {α β γ : Type} (f : β → γ) (l₁ : List α) (l₂ : List β)
    (h : l₂.length ≤ l₁.length) :
    (l₁.zip l₂).map (fun p => f p.2) = l₂.map f := by
  conv_rhs => rw [← List.map_snd_zip l₁ l₂ h]
  rw [List.map_map]
  rfl

theorem count_one_end_bits (cs : List Nat) :
    (((cs.map
        (fun c => List.replicate (c - 1) builder_zero ++ [builder_one])).flatten).count
      builder_one) = cs.length := by
  induction cs with
  | nil => rfl
  | cons c t ih =>
    simp only [List.map_cons, List.flatten_cons, List.count_append, ih,
      List.count_replicate, List.length_cons]
    have : (builder_zero == builder_one) = false := by decide
    simp [this, List.count_singleton]
    omega

theorem hash_state_spec_length :
    ∀ (zl : List (List Target × Nat)) (k : Nat),
      (∀ p ∈ zl, p.1.length = 32 ∧ 1 ≤ p.2) →
      (hash_state_spec zl k).length = 8 * (zl.map Prod.snd).sum := by
  intro zl
  induction zl with
  | nil => intro k _; rfl
  | cons p rest ih =>
    intro k hp
    obtain ⟨digest, c⟩ := p
    have hd := (hp (digest, c) (List.mem_cons_self _ _)).1
    have hc := (hp (digest, c) (List.mem_cons_self _ _)).2
    simp only [hash_state_spec, List.length_append, List.length_map,
      List.length_range, List.map_cons, List.sum_cons]
    rw [ih _ (fun q hq => hp q (List.mem_cons_of_mem _ hq)),
      chunks_exact_length 4 (by omega), hd]
    omega

/-- C6: for every batch, the end_bits sequence built by `add_virtual`
consists, message by message, of exactly `c - 1` zero entries followed by a
single one entry (`c` the message's chunk count); in particular it contains
exactly one 1 per message. -/
theorem add_virtual_end_bits (digests : List Target) (chunk_sizes : List Nat)
    (s : PubBuilderState)
    (hzip : (chunks_exact 32 digests).length = chunk_sizes.length)
    (hc : ∀ c ∈ chunk_sizes, 1 ≤ c) :
    ∃ pd s', BLAKE2BPublicData.add_virtual digests chunk_sizes s = some (pd, s') ∧
      pd.end_bits =
        ((chunk_sizes.map
          (fun c => List.replicate (c - 1) builder_zero ++ [builder_one])).flatten) ∧
      pd.end_bits.count builder_one = chunk_sizes.length := by
  refine ⟨⟨(add_virtual_loop ((chunks_exact 32 digests).zip chunk_sizes)
        (add_virtual_arrs (16 * 1024) s).2).1,
      (add_virtual_loop ((chunks_exact 32 digests).zip chunk_sizes)
        (add_virtual_arrs (16 * 1024) s).2).2.1⟩,
    (add_virtual_loop ((chunks_exact 32 digests).zip chunk_sizes)
      (add_virtual_arrs (16 * 1024) s).2).2.2, ?_, ?_, ?_⟩
  · simp only [BLAKE2BPublicData.add_virtual]
    rw [if_pos hzip]
  · simp only [add_virtual_loop_end_bits]
    rw [map_comp_snd_zip
      (fun c => List.replicate (c - 1) builder_zero ++ [builder_one])
      _ _ (le_of_eq hzip.symm)]
  · simp only [add_virtual_loop_end_bits]
    rw [map_comp_snd_zip
      (fun c => List.replicate (c - 1) builder_zero ++ [builder_one])
      _ _ (le_of_eq hzip.symm), count_one_end_bits]

/-- C5: for every batch, the hash-state wiring built by `add_virtual`
appends, for each message with chunk count `c`, `8 * (c - 1)` freshly
allocated intermediate state-word targets (one 4-target word array per
32-bit word, at consecutive fresh counters) followed by the message's 8
digest-derived word targets (the digest's 4-target chunks, reversed), for a
total of `8 * c` words per message and `8 * sum(chunk_sizes)` overall. -/
theorem add_virtual_hash_state (digests : List Target) (chunk_sizes : List Nat)
    (s : PubBuilderState)
    (hzip : (chunks_exact 32 digests).length = chunk_sizes.length)
    (hc : ∀ c ∈ chunk_sizes, 1 ≤ c) :
    ∃ pd s', BLAKE2BPublicData.add_virtual digests chunk_sizes s = some (pd, s') ∧
      pd.hash_state =
        hash_state_spec ((chunks_exact 32 digests).zip chunk_sizes)
          (s.next_virtual + 4 * (16 * 1024)) ∧
      pd.hash_state.length = 8 * chunk_sizes.sum := by
  have hmem : ∀ p ∈ (chunks_exact 32 digests).zip chunk_sizes,
      p.1.length = 32 ∧ 1 ≤ p.2 := by
    intro p hp
    have hp' : (p.1, p.2) ∈ (chunks_exact 32 digests).zip chunk_sizes := hp
    have := List.of_mem_zip hp'
    exact ⟨chunks_exact_mem_length 32 digests p.1 this.1, hc p.2 this.2⟩
  refine ⟨⟨(add_virtual_loop ((chunks_exact 32 digests).zip chunk_sizes)
        (add_virtual_arrs (16 * 1024) s).2).1,
      (add_virtual_loop ((chunks_exact 32 digests).zip chunk_sizes)
        (add_virtual_arrs (16 * 1024) s).2).2.1⟩,
    (add_virtual_loop ((chunks_exact 32 digests).zip chunk_sizes)
      (add_virtual_arrs (16 * 1024) s).2).2.2, ?_, ?_, ?_⟩
  · simp only [BLAKE2BPublicData.add_virtual]
    rw [if_pos hzip]
  · rw [add_virtual_loop_hash_state, add_virtual_arrs_snd]
  · rw [add_virtual_loop_hash_state,
      hash_state_spec_length _ _ hmem,
      List.map_snd_zip _ _ (le_of_eq hzip.symm)]

/-- Witness for C6 at a one-message batch with 2 chunks. -/
theorem add_virtual_end_bits_witness :
    ((chunks_exact 32 ((List.range 32).map Target.konst)).length =
        ([2] : List Nat).length ∧
      ∀ c ∈ ([2] : List Nat), 1 ≤ c) ∧
    (∃ pd s', BLAKE2BPublicData.add_virtual ((List.range 32).map Target.konst)
        [2] ⟨0⟩ = some (pd, s') ∧
      pd.end_bits =
        ((([2] : List Nat).map
          (fun c => List.replicate (c - 1) builder_zero ++ [builder_one])).flatten) ∧
      pd.end_bits.count builder_one = ([2] : List Nat).length) := by
  have hzip : (chunks_exact 32 ((List.range 32).map Target.konst)).length =
      ([2] : List Nat).length := by
    rw [chunks_exact_length 32 (by omega)]
    decide
  exact ⟨⟨hzip, by decide⟩,
    add_virtual_end_bits ((List.range 32).map Target.konst) [2] ⟨0⟩ hzip (by decide)⟩

/-- Witness for C5 at a one-message batch with 2 chunks. -/
theorem add_virtual_hash_state_witness :
    ((chunks_exact 32 ((List.range 32).map Target.konst)).length =
        ([2] : List Nat).length ∧
      ∀ c ∈ ([2] : List Nat), 1 ≤ c) ∧
    (∃ pd s', BLAKE2BPublicData.add_virtual ((List.range 32).map Target.konst)
        [2] ⟨0⟩ = some (pd, s') ∧
      pd.hash_state =
        hash_state_spec ((chunks_exact 32 ((List.range 32).map Target.konst)).zip [2])
          ((⟨0⟩ : PubBuilderState).next_virtual + 4 * (16 * 1024)) ∧
      pd.hash_state.length = 8 * ([2] : List Nat).sum) := by
  have hzip : (chunks_exact 32 ((List.range 32).map Target.konst)).length =
      ([2] : List Nat).length := by
    rw [chunks_exact_length 32 (by omega)]
    decide
  exact ⟨⟨hzip, by decide⟩,
    add_virtual_hash_state ((List.range 32).map Target.konst) [2] ⟨0⟩ hzip (by decide)⟩

end Curta
